import Mathlib

/-!
Verification of the metadata reconciliation engine of the
`AI-Nurse_ScR_v6` repository against its natural-language specification.

The definitions below are a shallow embedding, translated from the
Python sources:

* `src/nurse_scr_v6_3.py` — Block 3 normalizers (`normalize_doi`,
  `normalize_author`, `normalize_country`, `normalize_keywords`, and the
  scalar cleaning step at the vote-building loop) and the Block 4
  consensus/autofix loop (`norm_str`, `fuzzy_ratio`, `close_enough`,
  `robust_json_parse`, the per-field decision branches and the
  `needs_manual_idx` flagging).
* `ai_nurse_scr/utils.py` — `normalize_doi`, `write_audit_log`.
* `ai_nurse_scr/extraction.py` — `clean_str`, `approx_match`.

Python strings are modelled as Lean `String` / `List Char` (the inputs
of interest are ASCII); `None` is modelled with `Option`.  Python's
`difflib.SequenceMatcher.ratio` is modelled exactly (no junk heuristic,
which is inert for the short strings involved), with the final
`int(ratio * 100)` realised as exact rational floor `(200 * M) / (|a| + |b|)`;
this agrees with the floating-point computation except possibly when the
exact value is within one double ulp of an integer, and every concrete
evaluation below is far from such a boundary.
-/

namespace NurseScr

/-- Python's default `str.strip` whitespace set (ASCII). -/
def pyIsSpace (c : Char) : Bool :=
  c = ' ' || c = '\t' || c = '\n' || c = '\x0d' || c = '\x0b' || c = '\x0c'

/-- `str.strip()` on a character list: drop whitespace from both ends. -/
def pyStripL (cs : List Char) : List Char :=
  ((cs.dropWhile pyIsSpace).reverse.dropWhile pyIsSpace).reverse

/-- `str.strip()`. -/
def pyStrip (s : String) : String := ⟨pyStripL s.data⟩

/-- `str.lower()` (ASCII model). -/
def pyLowerL (cs : List Char) : List Char := cs.map Char.toLower

/-- `str.lower()`. -/
def pyLower (s : String) : String := ⟨pyLowerL s.data⟩

/-- `str.strip().lower()`, the comparison key used by `close_enough`
for fields other than title/author. -/
def stripLower (s : String) : String := pyLower (pyStrip s)

/-- Boolean prefix test on character lists. -/
def listIsPre : List Char → List Char → Bool
  | [], _ => true
  | _ :: _, [] => false
  | a :: as, b :: bs => a = b && listIsPre as bs

/-- The four DOI URL prefixes matched by the Python regex
`^(https?://(dx\.)?doi\.org/)`. -/
def doiSchemes : List (List Char) :=
  ["https://dx.doi.org/".data, "https://doi.org/".data,
   "http://dx.doi.org/".data, "http://doi.org/".data]

/-- `re.sub(r"^(https?://(dx\.)?doi\.org/)", "", x)`: remove one leading
DOI URL scheme, if present.  (The regex is anchored, so at most one
occurrence — at position 0 — is removed per call.) -/
def dropDoiScheme (s : String) : String :=
  match doiSchemes.find? (fun p => listIsPre p s.data) with
  | some p => ⟨s.data.drop p.length⟩
  | none => s

/-- `re.sub(r"\s", "", x)`. -/
def dropWhitespace (s : String) : String := ⟨s.data.filter (fun c => !pyIsSpace c)⟩

/-- `.replace(' ', '')`: removes the space character only. -/
def dropSpaces (s : String) : String := ⟨s.data.filter (fun c => c ≠ ' ')⟩

/-- `normalize_doi` from `nurse_scr_v6_3.py` (Block 3): empty for
`None`/non-string/falsy input, else strip, lower, remove spaces, drop
one leading DOI URL prefix, remove remaining whitespace.  `none` models
Python `None` (and any non-string, which takes the same `return ""`
branch). -/
def normalize_doi (x : Option String) : String :=
  match x with
  | none => ""
  | some s =>
    if s = "" then ""
    else dropWhitespace (dropDoiScheme (dropSpaces (pyLower (pyStrip s))))

/-- `normalize_doi` from `ai_nurse_scr/utils.py`: same steps, but the
space removal happens after the prefix strip rather than before. -/
def normalize_doi_u (x : Option String) : String :=
  match x with
  | none => ""
  | some s =>
    if s = "" then ""
    else dropWhitespace (dropSpaces (dropDoiScheme (pyLower (pyStrip s))))

/-- The scalar-field cleaning step of the Block 3 vote-building loop:
`str(orig).strip() if orig and orig != "null" else ""`. -/
def normalize_scalar (x : String) : String :=
  if x ≠ "" && x ≠ "null" then pyStrip x else ""

/-- A raw vote value as it reaches the normalizers: a string, a list of
strings, or absent (`None`). -/
inductive RawVal where
  | str (s : String)
  | list (l : List String)
  | none
deriving DecidableEq

/-- Python truthiness of a raw value (`if not raw: ...`). -/
def RawVal.falsy : RawVal → Bool
  | .str s => s = ""
  | .list l => l.isEmpty
  | .none => true

/-- `re.split(r";|,|&| and ", v)` from `normalize_author`, with a fuel
argument for structural recursion (the `" and "` delimiter consumes five
characters at once); `fuel = length` always suffices since every step
consumes at least one character. -/
def splitAuthorF : Nat → List Char → List (List Char)
  | _, [] => [[]]
  | 0, cs => [cs]
  | fuel + 1, c :: rest =>
    if c = ';' || c = ',' || c = '&' then [] :: splitAuthorF fuel rest
    else if listIsPre " and ".data (c :: rest) then [] :: splitAuthorF fuel (rest.drop 4)
    else
      let r := splitAuthorF fuel rest
      (c :: r.headD []) :: r.tail

/-- `re.split(r";|,|&| and ", v)`. -/
def splitAuthor (cs : List Char) : List (List Char) := splitAuthorF cs.length cs

/-- `re.sub(r"\s+", " ", x)`: collapse every whitespace run into a
single space. -/
def squeezeSpaces : List Char → List Char
  | [] => []
  | [c] => [if pyIsSpace c then ' ' else c]
  | c1 :: c2 :: rest =>
    if pyIsSpace c1 && pyIsSpace c2 then squeezeSpaces (c2 :: rest)
    else (if pyIsSpace c1 then ' ' else c1) :: squeezeSpaces (c2 :: rest)

/-- `norm_piece` from `normalize_author`: remove commas, collapse
whitespace, strip. -/
def normPiece (cs : List Char) : List Char :=
  pyStripL (squeezeSpaces (cs.filter (fun c => c ≠ ',')))

/-- Keep-first case-insensitive de-duplication used by
`normalize_author` and `normalize_keywords`: an element is kept when its
lowercase form is non-empty and not seen before. -/
def dedupLowerKeep (seen : List (List Char)) : List (List Char) → List (List Char)
  | [] => []
  | a :: rest =>
    let al := pyLowerL a
    if al ≠ [] && !seen.contains al then a :: dedupLowerKeep (al :: seen) rest
    else dedupLowerKeep seen rest

/-- `"; ".join(...)` on character-list tokens. -/
def joinSemi : List (List Char) → List Char
  | [] => []
  | [t] => t
  | t :: ts => t ++ ';' :: ' ' :: joinSemi ts

/-- `normalize_author` from `nurse_scr_v6_3.py` (Block 3). -/
def normalize_author (raw : RawVal) : String :=
  if raw.falsy then ""
  else
    let vals : List String := match raw with
      | .str s => [s]
      | .list l => l
      | .none => []
    let flat := vals.flatMap (fun v =>
      ((splitAuthor v.data).filter (fun w => pyStripL w ≠ [])).map normPiece)
    ⟨joinSemi (dedupLowerKeep [] flat)⟩

/-- Split a character list wherever `isDelim` holds (models Python
`str.split(';')` and `re.split` with single-character alternatives). -/
def splitIf (isDelim : Char → Bool) : List Char → List (List Char)
  | [] => [[]]
  | c :: rest =>
    let r := splitIf isDelim rest
    if isDelim c then [] :: r
    else (c :: r.headD []) :: r.tail

/-- Split at any single-character delimiter from `delims`. -/
def splitChars (delims : List Char) (cs : List Char) : List (List Char) :=
  splitIf (fun c => delims.contains c) cs

/-- The ISO two-letter code table of `normalize_country`. -/
def isoMap : List (List Char × List Char) :=
  [("us".data, "United States".data), ("gb".data, "United Kingdom".data),
   ("uk".data, "United Kingdom".data), ("au".data, "Australia".data),
   ("nz".data, "New Zealand".data), ("ca".data, "Canada".data)]

/-- Keep-first exact de-duplication (`dict.fromkeys`). -/
def dedupExactAux (seen : List (List Char)) : List (List Char) → List (List Char)
  | [] => []
  | a :: rest =>
    if seen.contains a then dedupExactAux seen rest
    else a :: dedupExactAux (a :: seen) rest

/-- One step of `normalize_country`'s token loop: ISO codes map to their
display name unconditionally; other tokens are stripped of
non-alphabetic, non-space characters and appended only when non-empty
and not already present case-insensitively. -/
def countryStep (names : List (List Char)) (v : List Char) : List (List Char) :=
  match (isoMap.find? (fun p => p.1 = pyLowerL v)).map Prod.snd with
  | some n => names ++ [n]
  | Option.none =>
    let c := pyStripL (v.filter (fun ch => ch.isAlpha || ch = ' '))
    if c ≠ [] && !(names.map pyLowerL).contains (pyLowerL c) then names ++ [c]
    else names

/-- `normalize_country` from `nurse_scr_v6_3.py` (Block 3), on string
input (list input goes through Python's `str()` rendering and is outside
the vote-value domain). -/
def normalize_country (raw : Option String) : String :=
  match raw with
  | Option.none => ""
  | some s =>
    if s = "" then ""
    else
      let vals := ((splitChars [';'] s.data).map pyStripL).filter (fun w => w ≠ [])
      let names := vals.foldl countryStep []
      ⟨joinSemi (dedupExactAux [] names)⟩

/-- Strict lexicographic order on character lists by code point
(Python string `<`). -/
def lexLt : List Char → List Char → Bool
  | [], [] => false
  | [], _ :: _ => true
  | _ :: _, [] => false
  | a :: as, b :: bs =>
    if a.toNat < b.toNat then true
    else if b.toNat < a.toNat then false
    else lexLt as bs

/-- `sorted(..., key=str.lower)` comparison key. -/
def keyLt (x y : List Char) : Bool := lexLt (pyLowerL x) (pyLowerL y)

/-- Stable insertion: place `x` before the first element not strictly
below it (Python's stable sort semantics). -/
def insertByKey (x : List Char) : List (List Char) → List (List Char)
  | [] => [x]
  | y :: ys => if keyLt y x then y :: insertByKey x ys else x :: y :: ys

/-- Stable insertion sort modelling `sorted(uniq, key=str.lower)`. -/
def sortByKey : List (List Char) → List (List Char)
  | [] => []
  | x :: xs => insertByKey x (sortByKey xs)

/-- Token extraction of `normalize_keywords`:
`[k.strip() for k in re.split(r";|,|/|\|", v) if k.strip()]`. -/
def kwTokens (cs : List Char) : List (List Char) :=
  ((splitChars [';', ',', '/', '|'] cs).map pyStripL).filter (fun w => w ≠ [])

/-- `vals`: a string becomes a one-element list, a list is taken as
is. -/
def kwVals : RawVal → List String
  | .str s => [s]
  | .list l => l
  | .none => []

/-- `flat`: all tokens of all values. -/
def kwFlat (raw : RawVal) : List (List Char) :=
  (kwVals raw).flatMap (fun v => kwTokens v.data)

/-- `normalize_keywords` from `nurse_scr_v6_3.py` (Block 3). -/
def normalize_keywords (raw : RawVal) : String :=
  if raw.falsy then ""
  else ⟨joinSemi (sortByKey (dedupLowerKeep [] (kwFlat raw)))⟩

/-! ## Block 4 consensus/autofix loop (`nurse_scr_v6_3.py`, lines 2021–2141) -/

/-- `norm_str` from Block 4: lowercase, then remove everything matched
by `[\s\W_]+`, i.e. keep only alphanumerics. -/
def norm_str (s : String) : String := ⟨(pyLowerL s.data).filter Char.isAlphanum⟩

/-- Length of the common prefix of two character lists. -/
def commonRun : List Char → List Char → Nat
  | a :: as, b :: bs => if a = b then commonRun as bs + 1 else 0
  | _, _ => 0

/-- `difflib.SequenceMatcher.find_longest_match` (no junk): the longest
common contiguous block, with difflib's tie-break — among maximal
blocks, the one whose position pair `(i, j)` is lexicographically
smallest.  Returns `(i, j, k)`; `k = 0` means no common block. -/
def bestBlock (a b : List Char) : Nat × Nat × Nat :=
  (List.range a.length).foldl
    (fun acc i =>
      (List.range b.length).foldl
        (fun acc j =>
          let k := commonRun (a.drop i) (b.drop j)
          if k > acc.2.2 then (i, j, k) else acc)
        acc)
    (0, 0, 0)

/-- Total size of `get_matching_blocks`: recursively take the longest
block and recurse on both sides.  `fuel` makes the recursion structural;
`fuel = |a| + |b|` suffices because each level removes at least one
character from each side of the chosen block's span (the combined
length drops by at least the block size on each recursive call). -/
def matchTotalF : Nat → List Char → List Char → Nat
  | 0, _, _ => 0
  | fuel + 1, a, b =>
    match bestBlock a b with
    | (i, j, k) =>
      if k = 0 then 0
      else
        matchTotalF fuel (a.take i) (b.take j) + k +
          matchTotalF fuel (a.drop (i + k)) (b.drop (j + k))

/-- Total number of matching characters found by
`difflib.SequenceMatcher(None, a, b).get_matching_blocks()`. -/
def matchTotal (a b : List Char) : Nat := matchTotalF (a.length + b.length) a b

/-- `fuzzy_ratio` from Block 4:
`int(SequenceMatcher(None, a, b).ratio() * 100)`, realised as the exact
rational floor `⌊200·M / (|a| + |b|)⌋` (difflib returns `1.0` on two
empty strings, hence the `100`). -/
def fuzzyScore (a b : String) : Nat :=
  let L := a.length + b.length
  if L = 0 then 100 else 200 * matchTotal a.data b.data / L

/-- The four fields reconciled by Block 4
(`fields = ["title", "author", "year", "doi"]`). -/
inductive Field4 where
  | title
  | author
  | year
  | doi
deriving DecidableEq

/-- `fields` list of Block 4, in source order. -/
def fieldsList : List Field4 := [.title, .author, .year, .doi]

/-- `close_enough(a, b, field)` from Block 4: false when either value is
empty; for title/author, equality of `norm_str` forms or a fuzzy score
above the per-field threshold (88 for title, 82 for author); otherwise
case-insensitive stripped string equality. -/
def close_enough (a b : String) (f : Field4) : Bool :=
  if a = "" || b = "" then false
  else if f = .title || f = .author then
    if norm_str a = norm_str b then true
    else fuzzyScore a b ≥ (if f = .title then 88 else 82)
  else stripLower a = stripLower b

/-- The six extraction methods of Block 4
(`methods = ["llm_raw", "grobid", "fitz", "crossref", "openalex", "filename"]`). -/
inductive Method where
  | llm_raw
  | grobid
  | fitz
  | crossref
  | openalex
  | filename
deriving DecidableEq

/-- `methods` list of Block 4, in source order. -/
def methodsList : List Method :=
  [.llm_raw, .grobid, .fitz, .crossref, .openalex, .filename]

/-- Method names as written in the manifest (`{field}_src` values). -/
def Method.name : Method → String
  | .llm_raw => "llm_raw"
  | .grobid => "grobid"
  | .fitz => "fitz"
  | .crossref => "crossref"
  | .openalex => "openalex"
  | .filename => "filename"

/-- A vote map for one field of one record: every method maps to a
string (canonical-empty `""` when the method produced nothing). -/
def Votes := Method → String

/-- The outcome of the per-field branch chain of the Block 4 loop.  Each
constructor corresponds to one decided `continue` site (or to falling
through to the `needs_manual_idx` flagging): the preferred
openalex/crossref branch, the `n_matches >= 2` consensus branch, the
single non-blank branch, or manual review. -/
inductive Outcome where
  | preferred (v : String)
  | consensus (v : String)
  | singleSource (m : Method) (v : String)
  | review
deriving DecidableEq

/-- The `(field_final, field_src)` manifest assignment made by each
decided branch (`none` for the review fall-through, which assigns
nothing). -/
def Outcome.finalSrc : Outcome → Option (String × String)
  | .preferred v => some (v, "openalex/crossref")
  | .consensus v => some (v, "llm_raw")
  | .singleSource m v => some (v, m.name)
  | .review => none

/-- `nonblank = [m for m in methods if votes[m] and votes[m] != "[Missing]"]`. -/
def nonblankOf (votes : Votes) : List Method :=
  methodsList.filter (fun m => votes m ≠ "" && votes m ≠ "[Missing]")

/-- `preferred_raw`: the first of openalex, crossref (in that order)
whose vote is `close_enough` to the anchor's. -/
def preferredRawOf (f : Field4) (votes : Votes) : Option String :=
  if close_enough (votes .llm_raw) (votes .openalex) f then some (votes .openalex)
  else if close_enough (votes .llm_raw) (votes .crossref) f then some (votes .crossref)
  else Option.none

/-- `match_methods = [m for m in methods if close_enough(llm_val, votes[m], field)]`. -/
def matchMethodsOf (f : Field4) (votes : Votes) : List Method :=
  methodsList.filter (fun m => close_enough (votes .llm_raw) (votes m) f)

/-- `n_matches = len([k for k in match_methods if votes[k]])`. -/
def nMatchesOf (f : Field4) (votes : Votes) : Nat :=
  ((matchMethodsOf f votes).filter (fun m => votes m ≠ "")).length

/-- `valid_compare_methods = [m for m in methods if m != "filename" and votes[m]]`. -/
def validCompareOf (votes : Votes) : List Method :=
  methodsList.filter (fun m => m ≠ .filename && votes m ≠ "")

/-- The Block 4 per-field decision chain, translated branch by branch
from the consensus/autofix loop. -/
def resolveField (f : Field4) (votes : Votes) : Outcome :=
  let llmVal := votes .llm_raw
  let fallThrough : Outcome :=
    match nonblankOf votes with
    | [m] => .singleSource m (votes m)
    | _ => .review
  if f = .title || f = .author then
    match preferredRawOf f votes with
    | some v => .preferred v
    | Option.none =>
      if nMatchesOf f votes ≥ 2 &&
          (matchMethodsOf f votes).any (fun m => (validCompareOf votes).contains m) then
        .consensus llmVal
      else fallThrough
  else
    if nMatchesOf f votes ≥ 2 then .consensus llmVal
    else fallThrough

/-! ## `ai_nurse_scr/extraction.py`: `clean_str` and `approx_match` -/

/-- `clean_str` from `ai_nurse_scr/extraction.py`: lowercase, keep only
alphanumerics and whitespace, then remove the space character (other
whitespace characters survive, exactly as in the source). -/
def clean_str (x : Option String) : String :=
  let s := match x with
    | Option.none => ""
    | some s => s
  ⟨((pyLowerL s.data).filter (fun c => c.isAlphanum || pyIsSpace c)).filter
    (fun c => c ≠ ' ')⟩

/-- Ascending insertion (by code-point lexicographic order) for the
sorted-set model below. -/
def insertLex (x : List Char) : List (List Char) → List (List Char)
  | [] => [x]
  | y :: ys => if lexLt y x then y :: insertLex x ys else x :: y :: ys

/-- Plain lexicographic sort. -/
def sortLex : List (List Char) → List (List Char)
  | [] => []
  | x :: xs => insertLex x (sortLex xs)

/-- The keyword token set of `approx_match`:
`sorted({x.strip() for x in str(a).replace(";", " ").replace(",", " ").lower().split() if x})`. -/
def kwTokSet (s : String) : List (List Char) :=
  let repl := pyLowerL (s.data.map (fun c => if c = ';' || c = ',' then ' ' else c))
  let toks := (splitIf pyIsSpace repl).filter (fun w => w ≠ [])
  sortLex (dedupExactAux [] (toks.map pyStripL))

/-- `approx_match(a, b, field)` from `ai_nurse_scr/extraction.py`.
`None` arguments are modelled as `Option.none`; the field name is a
plain string as in the source. -/
def approx_match (a b : Option String) (field : String) : Bool :=
  match a, b with
  | Option.none, _ => false
  | _, Option.none => false
  | some sa, some sb =>
    if field = "doi" then normalize_doi_u (some sa) = normalize_doi_u (some sb)
    else if field = "author_keywords" then kwTokSet sa = kwTokSet sb
    else clean_str (some sa) = clean_str (some sb)

/-! ## Audit-log writers -/

/-- `write_audit_log` from `ai_nurse_scr/utils.py`: append one
serialized JSON line to the log.  The log is modelled as the list of
its lines; `entry` is the serialized form of `data` (`json.dumps`), a
pure function of the entry alone. -/
def write_audit_log (entry : String) (log : List String) : List String :=
  log ++ [entry]

/-- The record appended by the minimal Block 4 audit append
(`nurse_scr_v6_3.py`, end of Block 4): step label, two timestamps, the
output paths, their file hashes, reviewer name and approval flag. -/
structure AuditEntry where
  step : String
  timestampUtc : String
  timestampNzdt : String
  outputs : List (String × String)
  hashes : List (String × String)
  reviewer : String
  finalApproved : Bool
deriving DecidableEq

/-- A straightforward rendering of the Block 4 audit record (the
`json.dumps` of the literal dict in the source); injective in the entry
fields, and — like the source — a function of the entry alone. -/
def renderAudit (e : AuditEntry) : String :=
  let kvs := fun (l : List (String × String)) =>
    String.join (l.map (fun p => "\"" ++ p.1 ++ "\": \"" ++ p.2 ++ "\", "))
  "\x7b\"step\": \"" ++ e.step ++ "\", \"timestamp_utc\": \"" ++ e.timestampUtc ++
    "\", \"timestamp_nzdt\": \"" ++ e.timestampNzdt ++ "\", \"outputs\": \x7b" ++
    kvs e.outputs ++ "\x7d, \"hashes\": \x7b" ++ kvs e.hashes ++
    "\x7d, \"reviewer\": \"" ++ e.reviewer ++ "\", \"final_approved\": " ++
    (if e.finalApproved then "true" else "false") ++ "\x7d"

/-- The Block 4 minimal audit append:
`open(AUDIT_PATH, "a")` followed by one `f.write(json.dumps({...}) + "\n")`. -/
def blockFourAuditAppend (e : AuditEntry) (log : List String) : List String :=
  log ++ [renderAudit e]

/-! ## `robust_json_parse` (Block 4) -/

/-- A value as it can arrive in a `*_votes` manifest cell: an actual
dict (modelled as an association list), a string, or a missing/NaN
cell. -/
inductive CellVal where
  | dict (kvs : List (String × String))
  | str (s : String)
  | nan
deriving DecidableEq

/-- The possible results of `json.loads` / `ast.literal_eval` on a
string: a dict, some non-dict value, or an exception (`Option.none` at
the call site). -/
inductive PyJson where
  | obj (kvs : List (String × String))
  | other
deriving DecidableEq

/-- Method-name strings of Block 4. -/
def methodNames : List String :=
  ["llm_raw", "grobid", "fitz", "crossref", "openalex", "filename"]

/-- `{m: "" for m in methods}`. -/
def defaultVotesMap : List (String × String) := methodNames.map (fun m => (m, ""))

/-- `js.setdefault(m, "")` for every method name, in order. -/
def setDefaults (kvs : List (String × String)) : List (String × String) :=
  methodNames.foldl
    (fun acc m => if (acc.lookup m).isSome then acc else acc ++ [(m, "")]) kvs

/-- `robust_json_parse` from Block 4, parameterized by the two parsing
oracles (`json.loads` and `ast.literal_eval`, `Option.none` modelling a
raised exception).  Mirrors the source branch for branch: a dict input
is returned unchanged; NaN or blank-ish strings give the complete
default map; a JSON-parsed dict gets `setdefault` for every method; a
`literal_eval`-parsed dict is returned as `dict(js)` without
`setdefault`; everything else gives the default map. -/
def robust_json_parse (jsonLoads litEval : String → Option PyJson)
    (val : CellVal) : List (String × String) :=
  match val with
  | .dict kvs => kvs
  | .nan => defaultVotesMap
  | .str s =>
    if pyStrip s = "" || pyStrip s = "\x7b\x7d" || pyStrip s = "nan" ||
        pyStrip s = "None" then defaultVotesMap
    else
      match jsonLoads s with
      | some (.obj kvs) => setDefaults kvs
      | some .other => defaultVotesMap
      | Option.none =>
        match litEval s with
        | some (.obj kvs) => kvs
        | some .other => defaultVotesMap
        | Option.none => defaultVotesMap

/-! ## Manifest-level consensus pass (Block 4 loop + flagging) -/

/-- The vote maps of one manifest row, one per field. -/
def RowVotes := Field4 → Votes

/-- The `(field_final, field_src)` cells written for one row
(`none` when the field was left for review). -/
def rowAssign (r : RowVotes) (f : Field4) : Option (String × String) :=
  (resolveField f (r f)).finalSrc

/-- `auto_decided[field]`: set (to `True`) by every deciding branch
before its `continue`; a field reaches the flagging check unset exactly
when the whole chain fell through. -/
def autoDecided (f : Field4) (v : Votes) : Bool :=
  resolveField f v ≠ .review

/-- `needs_manual_idx`: the `(idx, field)` pairs appended by
`if not auto_decided.get(field, False)`, rows outer, fields inner. -/
def needsManualIdx (manifest : List RowVotes) : List (Nat × Field4) :=
  manifest.enum.flatMap (fun p =>
    (fieldsList.filter (fun f => !autoDecided f (p.2 f))).map (fun f => (p.1, f)))

/-! ## Spec-side definitions (from the specification's words, for
comparison with the code-derived definitions above) -/

/-- Claim C1's corroborator count: methods other than the anchor
(`llm_raw`) and other than `filename` whose non-empty vote agrees with
the anchor's vote (exact, or fuzzy for title/author — i.e.
`close_enough`). -/
def specStep3Count (f : Field4) (v : Votes) : Nat :=
  (methodsList.filter (fun m =>
    m ≠ Method.llm_raw && m ≠ Method.filename && v m ≠ "" &&
      close_enough (v .llm_raw) (v m) f)).length

/-- Agreement count of methods other than the anchor, `filename`
included (what the code actually requires beyond the anchor itself). -/
def anchorOtherAgree (f : Field4) (v : Votes) : Nat :=
  (methodsList.filter (fun m =>
    m ≠ Method.llm_raw && close_enough (v .llm_raw) (v m) f)).length

/-- Claim C5's similarity test: Ratcliff/Obershelp similarity
`2·M/(|a|+|b|)` of the stripped-and-lowercased forms, compared with the
per-field threshold (0.88 title / 0.82 author) as an exact rational
inequality. -/
def specFuzzyEqual (f : Field4) (a b : String) : Bool :=
  let x := (norm_str a).data
  let y := (norm_str b).data
  let thr : Nat := if f = .title then 88 else 82
  100 * (2 * matchTotal x y) ≥ thr * (x.length + y.length)

/-! ## Concrete vote maps and inputs used by the claim scenarios -/

/-- Year votes where only the filename method repeats the anchor's
value. -/
def votesYearFn : Votes := fun m =>
  match m with
  | .llm_raw => "2020"
  | .filename => "2020"
  | _ => ""

/-- The doi scenario of claim C2:
`{llm: "10.1/AAA", crossref: "https://doi.org/10.1/aaa", openalex: ""}`. -/
def votesDoiReg : Votes := fun m =>
  match m with
  | .llm_raw => "10.1/AAA"
  | .crossref => "https://doi.org/10.1/aaa"
  | _ => ""

/-- The author scenario of claim C4:
`{llm: "Smith J", grobid: "", fitz: "", filename: "Smith"}`. -/
def votesAuthorFn : Votes := fun m =>
  match m with
  | .llm_raw => "Smith J"
  | .filename => "Smith"
  | _ => ""

/-- A one-row manifest built from the C4 author votes (every field gets
the same vote map), used to witness the manifest-level invariant. -/
def manifestOne : List RowVotes := [fun _ => votesAuthorFn]

/-- A concrete Block 4 audit entry (field hashes of the two output
files, as the source writes them). -/
def auditEntryEx : AuditEntry :=
  { step := "block4_reviewer_approval"
    timestampUtc := "2025-01-01 00:00:00Z"
    timestampNzdt := "2025-01-01 12:00:00+12:00"
    outputs := [("final_manifest.csv.sha256", "/op/final_manifest.csv.sha256")]
    hashes := [("final_manifest.csv.sha256", "9f2a"), ("review_correction_log.json.sha256", "77c1")]
    reviewer := "Reviewer Name"
    finalApproved := true }

/-! ## Helper lemmas -/

/-- An empty value on either side makes `close_enough` false. -/
theorem close_enough_empty (a b : String) (f : Field4) (h : a = "" ∨ b = "") :
    close_enough a b f = false := by
  rcases h with h | h <;> simp [close_enough, h]

/-- A successful `close_enough` has two non-empty arguments. -/
theorem close_enough_ne_empty {a b : String} {f : Field4}
    (h : close_enough a b f = true) : a ≠ "" ∧ b ≠ "" := by
  constructor <;> intro he <;> rw [close_enough_empty a b f (by simp [he])] at h <;> cases h

/-- A non-empty value is always `close_enough` to itself. -/
theorem close_enough_self (a : String) (f : Field4) (ha : a ≠ "") :
    close_enough a a f = true := by
  cases f <;> simp [close_enough, ha]

/-- A successful association-list lookup survives appending on the
right. -/
theorem lookup_append_left {m : String} {l1 : List (String × String)}
    (l2 : List (String × String)) {v : String} (h : List.lookup m l1 = some v) :
    List.lookup m (l1 ++ l2) = some v := by
  induction l1 with
  | nil => simp at h
  | cons p rest ih =>
    simp only [List.lookup, List.cons_append] at h ⊢
    split at h
    · simp_all
    · simp_all

/-- A failed lookup on the left part defers to the right part. -/
theorem lookup_append_right {m : String} {l1 : List (String × String)}
    (l2 : List (String × String)) (h : List.lookup m l1 = Option.none) :
    List.lookup m (l1 ++ l2) = List.lookup m l2 := by
  induction l1 with
  | nil => simp
  | cons p rest ih =>
    simp only [List.lookup, List.cons_append] at h ⊢
    split at h
    · cases h
    · simp_all

/-- Every method name can be looked up in `{m: "" for m in methods}`. -/
theorem lookup_defaultVotesMap {m : String} (h : m ∈ methodNames) :
    (List.lookup m defaultVotesMap).isSome := by
  have : ∀ l : List String, m ∈ l → (List.lookup m (l.map (fun x => (x, "")))).isSome := by
    intro l
    induction l with
    | nil => intro hl; cases hl
    | cons x rest ih =>
      intro hl
      by_cases hx : m = x
      · simp [List.lookup, hx]
      · have hr : m ∈ rest := by
          rcases List.mem_cons.mp hl with h | h
          · exact absurd h hx
          · exact h
        have hbeq : (m == x) = false := beq_eq_false_iff_ne.mpr hx
        rw [List.map_cons, show (List.lookup m ((x, "") :: rest.map (fun x => (x, "")))) =
          List.lookup m (rest.map (fun x => (x, ""))) by simp [List.lookup, hbeq]]
        exact ih hr
  exact this methodNames h

/-- `setdefault` preserves an already-successful lookup. -/
theorem lookup_setdefault_step (m x : String) (acc : List (String × String))
    (h : (List.lookup m acc).isSome) :
    (List.lookup m (if (acc.lookup x).isSome then acc else acc ++ [(x, "")])).isSome := by
  split
  · exact h
  · rcases Option.isSome_iff_exists.mp h with ⟨v, hv⟩
    simp [lookup_append_left _ hv]

/-- After the `setdefault` loop every method name can be looked up. -/
theorem lookup_setDefaults {m : String} (kvs : List (String × String))
    (h : m ∈ methodNames) : (List.lookup m (setDefaults kvs)).isSome := by
  have main : ∀ (l : List String) (acc : List (String × String)),
      (m ∈ l ∨ (List.lookup m acc).isSome) →
      (List.lookup m (l.foldl
        (fun acc x => if (acc.lookup x).isSome then acc else acc ++ [(x, "")]) acc)).isSome := by
    intro l
    induction l with
    | nil =>
      intro acc h
      rcases h with h | h
      · cases h
      · simp only [List.foldl_nil]
        exact h
    | cons x rest ih =>
      intro acc h
      simp only [List.foldl_cons]
      rcases h with h | h
      · rcases List.mem_cons.mp h with rfl | h
        · refine ih _ (Or.inr ?_)
          by_cases hc : (acc.lookup m).isSome
          · simp [hc]
          · simp only [hc, if_false]
            have : List.lookup m (acc ++ [(m, "")]) = some "" := by
              refine lookup_append_right _ ?_ |>.trans ?_
              · exact Option.not_isSome_iff_eq_none.mp hc
              · simp [List.lookup]
            simp [this]
        · exact ih _ (Or.inl h)
      · exact ih _ (Or.inr (lookup_setdefault_step m x acc h))
  exact main methodNames kvs (Or.inl h)

set_option maxRecDepth 100000

/-- When the anchor vote is empty, no other method can agree with it. -/
theorem anchorOtherAgree_empty (f : Field4) (v : Votes) (h : v .llm_raw = "") :
    anchorOtherAgree f v = 0 := by
  unfold anchorOtherAgree
  rw [List.length_eq_zero]
  refine List.filter_eq_nil_iff.mpr (fun m _ => ?_)
  simp [close_enough_empty (v .llm_raw) (v m) f (Or.inl h)]

/-- `n_matches` equals the plain length of `match_methods`: every
matching method already has a non-empty vote, so the inner truthiness
filter removes nothing. -/
theorem nMatchesOf_eq_length (f : Field4) (v : Votes) :
    nMatchesOf f v = (matchMethodsOf f v).length := by
  unfold nMatchesOf
  congr 1
  refine List.filter_eq_self.mpr (fun m hm => ?_)
  have hp := (List.mem_filter.mp hm).2
  have h2 := close_enough_ne_empty hp
  simp only [decide_eq_true_eq]
  exact h2.2

/-- `match_methods` splits into the anchor's self-match plus the
other-method agreement count. -/
theorem matchMethods_length (f : Field4) (v : Votes) :
    (matchMethodsOf f v).length =
      (if close_enough (v .llm_raw) (v .llm_raw) f then 1 else 0) + anchorOtherAgree f v := by
  simp only [matchMethodsOf, anchorOtherAgree, methodsList, List.filter]
  cases h1 : close_enough (v .llm_raw) (v .llm_raw) f <;>
    cases h2 : close_enough (v .llm_raw) (v .grobid) f <;>
    cases h3 : close_enough (v .llm_raw) (v .fitz) f <;>
    cases h4 : close_enough (v .llm_raw) (v .crossref) f <;>
    cases h5 : close_enough (v .llm_raw) (v .openalex) f <;>
    cases h6 : close_enough (v .llm_raw) (v .filename) f <;>
    simp_all

/-- With a non-empty anchor vote, the anchor itself sits in
`valid_compare_methods`. -/
theorem llm_mem_validCompare (v : Votes) (h : v .llm_raw ≠ "") :
    (validCompareOf v).contains Method.llm_raw = true := by
  have hm : Method.llm_raw ∈ validCompareOf v :=
    List.mem_filter.mpr ⟨by decide, by simp [h]⟩
  simpa using hm

/-- With a non-empty anchor vote, the intersection test of the
title/author consensus branch is vacuously satisfied by the anchor. -/
theorem matchAny_validCompare (f : Field4) (v : Votes) (h : v .llm_raw ≠ "") :
    (matchMethodsOf f v).any (fun m => (validCompareOf v).contains m) = true := by
  refine List.any_eq_true.mpr ⟨Method.llm_raw, ?_, llm_mem_validCompare v h⟩
  exact List.mem_filter.mpr ⟨by decide, close_enough_self _ f h⟩

/-- The single-source/review fall-through never produces a consensus
outcome. -/
theorem fallThrough_ne_consensus (v : Votes) (x : String) :
    (match nonblankOf v with
      | [m] => Outcome.singleSource m (v m)
      | _ => Outcome.review) ≠ Outcome.consensus x := by
  rcases hnb : nonblankOf v with _ | ⟨m, _ | ⟨m2, rest⟩⟩ <;> simp

/-! ## Claim C1 -/

/-- Claim C1 counterexample: for field `year` and votes
`{llm_raw: "2020", filename: "2020", rest empty}` the loop grants the
consensus outcome although zero methods other than the anchor and other
than `filename` agree with the anchor — the anchor's own self-match and
the `filename` vote alone reach `n_matches = 2`. -/
theorem c1_counterexample :
    resolveField .year votesYearFn = .consensus "2020" ∧
      specStep3Count .year votesYearFn = 0 := by
  constructor <;> decide

/-- Claim C1 amended: when the preferred-registry comparison fails on
both registries, the agreement-counting branch grants its consensus
outcome iff the anchor's vote is non-empty and at least ONE method
other than the anchor — the filename method included — has a non-empty
vote `close_enough` to the anchor's (the `n_matches ≥ 2` count includes
the anchor's self-match, and the extra non-filename intersection check
of the title/author branch is vacuous because the anchor itself
satisfies it); in that case the chosen value is the anchor's value and
the recorded source is the anchor method's name. -/
theorem c1_amended (f : Field4) (v : Votes)
    (hoa : close_enough (v .llm_raw) (v .openalex) f = false)
    (hcr : close_enough (v .llm_raw) (v .crossref) f = false) :
    (resolveField f v = .consensus (v .llm_raw) ↔
      v .llm_raw ≠ "" ∧ 1 ≤ anchorOtherAgree f v) ∧
      ((resolveField f v = .consensus (v .llm_raw)) →
        (resolveField f v).finalSrc = some (v .llm_raw, "llm_raw")) := by
  have hpref : preferredRawOf f v = Option.none := by
    simp [preferredRawOf, hoa, hcr]
  have hn : nMatchesOf f v =
      (if close_enough (v .llm_raw) (v .llm_raw) f then 1 else 0) + anchorOtherAgree f v :=
    (nMatchesOf_eq_length f v).trans (matchMethods_length f v)
  have key : resolveField f v = .consensus (v .llm_raw) ↔
      v .llm_raw ≠ "" ∧ 1 ≤ anchorOtherAgree f v := by
    constructor
    · intro hres
      by_cases hllm : v .llm_raw = ""
      · exfalso
        have hz : anchorOtherAgree f v = 0 := anchorOtherAgree_empty f v hllm
        have hself : close_enough (v .llm_raw) (v .llm_raw) f = false :=
          close_enough_empty _ _ f (Or.inl hllm)
        have hn0 : nMatchesOf f v = 0 := by
          rw [hn, if_neg (by simp [hself]), hz]
        unfold resolveField at hres
        by_cases hta : (f = Field4.title || f = Field4.author) = true
        · rw [if_pos hta, hpref] at hres
          rw [show (nMatchesOf f v ≥ 2 && (matchMethodsOf f v).any
            (fun m => (validCompareOf v).contains m)) = false by
              simp [hn0]] at hres
          exact fallThrough_ne_consensus v _ (by simpa using hres)
        · rw [if_neg hta] at hres
          rw [if_neg (by omega)] at hres
          exact fallThrough_ne_consensus v _ hres
      · refine ⟨hllm, ?_⟩
        have hself : close_enough (v .llm_raw) (v .llm_raw) f = true :=
          close_enough_self _ f hllm
        have hn1 : nMatchesOf f v = 1 + anchorOtherAgree f v := by
          rw [hn, if_pos hself]
        unfold resolveField at hres
        by_cases hta : (f = Field4.title || f = Field4.author) = true
        · rw [if_pos hta, hpref] at hres
          by_cases hcond : (nMatchesOf f v ≥ 2 && (matchMethodsOf f v).any
              (fun m => (validCompareOf v).contains m)) = true
          · have hge2 : nMatchesOf f v ≥ 2 := by
              have := (Bool.and_eq_true _ _).mp hcond |>.1
              simpa using this
            omega
          · rw [Bool.not_eq_true] at hcond
            rw [hcond] at hres
            exact absurd hres (fallThrough_ne_consensus v _)
        · rw [if_neg hta] at hres
          by_cases hge : nMatchesOf f v ≥ 2
          · omega
          · rw [if_neg hge] at hres
            exact absurd hres (fallThrough_ne_consensus v _)
    · rintro ⟨hllm, hcount⟩
      have hself : close_enough (v .llm_raw) (v .llm_raw) f = true :=
        close_enough_self _ f hllm
      have hn1 : nMatchesOf f v = 1 + anchorOtherAgree f v := by
        rw [hn, if_pos hself]
      have hge : nMatchesOf f v ≥ 2 := by omega
      unfold resolveField
      by_cases hta : (f = Field4.title || f = Field4.author) = true
      · rw [if_pos hta, hpref]
        have hcond : (nMatchesOf f v ≥ 2 && (matchMethodsOf f v).any
            (fun m => (validCompareOf v).contains m)) = true := by
          rw [Bool.and_eq_true]
          exact ⟨decide_eq_true hge, matchAny_validCompare f v hllm⟩
        rw [hcond]
        rfl
      · rw [if_neg hta, if_pos hge]
  refine ⟨key, fun hres => ?_⟩
  rw [hres]
  rfl

/-- Claim C1 witness: the amended characterization instantiated on the
year/filename vote map, where the registry comparisons fail and exactly
one non-anchor method (filename) agrees. -/
theorem c1_witness :
    (resolveField .year votesYearFn = .consensus (votesYearFn .llm_raw) ↔
      votesYearFn .llm_raw ≠ "" ∧ 1 ≤ anchorOtherAgree .year votesYearFn) ∧
      ((resolveField .year votesYearFn = .consensus (votesYearFn .llm_raw)) →
        (resolveField .year votesYearFn).finalSrc =
          some (votesYearFn .llm_raw, "llm_raw")) :=
  c1_amended .year votesYearFn (by decide) (by decide)

/-! ## Claim C2 -/

/-- Claim C2 counterexample: on the vote map
`{llm: "10.1/AAA", crossref: "https://doi.org/10.1/aaa", openalex: ""}`
for field `doi`, the Block 4 loop does NOT produce the claimed decision
`("10.1/aaa", "crossref", "auto_consensus")`: it assigns nothing
(`finalSrc = none`) and falls through to manual review. -/
theorem c2_counterexample :
    (resolveField .doi votesDoiReg).finalSrc = Option.none ∧
      resolveField .doi votesDoiReg ≠ .preferred "https://doi.org/10.1/aaa" := by
  constructor <;> decide

/-- Claim C2 amended: the doi scenario is flagged for manual review,
because the doi comparison used by the loop is plain case-insensitive
stripped string equality (no DOI-URL prefix stripping), and the
preferred-registry branch applies only to title/author. -/
theorem c2_amended :
    resolveField .doi votesDoiReg = .review ∧
      stripLower "10.1/AAA" ≠ stripLower "https://doi.org/10.1/aaa" := by
  constructor <;> decide

/-! ## Claim C3 -/

/-- Claim C3 counterexample: two canonical-empty values DO match under
the approximate matcher `approx_match` (for every field name): its only
emptiness guard is against `None`, after which two empty strings
normalize identically on every branch. -/
theorem c3_counterexample :
    approx_match (some "") (some "") "doi" = true ∧
      approx_match (some "") (some "") "title" = true ∧
      approx_match (some "") (some "") "author_keywords" = true := by
  refine ⟨by decide, by decide, by decide⟩

/-- Claim C3 amended: the consensus matcher `close_enough` is never true
when either value is empty (so two canonical-empty values never match
there); the reporting-side `approx_match` returns false when either
argument is `None`, but two canonical-empty strings always match under
it. -/
theorem c3_amended :
    (∀ (f : Field4) (a b : String), (a = "" ∨ b = "") → close_enough a b f = false) ∧
      (∀ (s : Option String) (fld : String),
        approx_match Option.none s fld = false ∧ approx_match s Option.none fld = false) ∧
      (∀ fld : String, approx_match (some "") (some "") fld = true) := by
  refine ⟨fun f a b h => close_enough_empty a b f h, ?_, ?_⟩
  · intro s fld
    cases s <;> exact ⟨rfl, rfl⟩
  · intro fld
    simp only [approx_match]
    split_ifs <;> simp

/-- Claim C3 witness: the amended statement instantiated at field
`title` with an empty left value. -/
theorem c3_witness :
    close_enough "" "x" Field4.title = false :=
  c3_amended.1 Field4.title "" "x" (Or.inl rfl)

/-! ## Claim C4 -/

/-- Claim C4 counterexample: on the author vote map
`{llm: "Smith J", grobid: "", fitz: "", filename: "Smith"}`, the loop
does NOT take the single-source path: it auto-decides through the
consensus branch (filename's `"Smith"` fuzzy-matches the anchor at
ratio 83 ≥ 82 and counts as a corroborator). -/
theorem c4_counterexample :
    resolveField .author votesAuthorFn = .consensus "Smith J" ∧
      resolveField .author votesAuthorFn ≠ .singleSource .llm_raw "Smith J" := by
  constructor <;> decide

/-- Claim C4 amended: the map auto-resolves through the `n_matches ≥ 2`
consensus branch, with final value `"Smith J"` and source `llm_raw`;
the fuzzy score of `"Smith J"` vs `"Smith"` is 83 (≥ the author
threshold 82), so `filename` does corroborate, and the single-source
branch could not have fired anyway since two methods are non-blank. -/
theorem c4_amended :
    resolveField .author votesAuthorFn = .consensus "Smith J" ∧
      (resolveField .author votesAuthorFn).finalSrc = some ("Smith J", "llm_raw") ∧
      fuzzyScore "Smith J" "Smith" = 83 ∧
      (methodsList.filter
        (fun m => votesAuthorFn m ≠ "" && votesAuthorFn m ≠ "[Missing]")).length = 2 := by
  refine ⟨by decide, by decide, by decide, by decide⟩

/-! ## Claim C5 -/

/-- Claim C5 counterexample: for the non-empty title pair
`"THE CAT SAT"` / `"the cat sXt"`, the claim's similarity (computed on
the stripped-and-lowercased forms `"thecatsat"` / `"thecatsxt"`,
16/18 ≈ 0.889 ≥ 0.88) says fuzzy-equal, but `close_enough` is false:
the code strips and lowercases only for its exact-equality shortcut and
feeds the RAW strings to `SequenceMatcher` (raw score 18 < 88). -/
theorem c5_counterexample :
    specFuzzyEqual .title "THE CAT SAT" "the cat sXt" = true ∧
      close_enough "THE CAT SAT" "the cat sXt" .title = false ∧
      ("THE CAT SAT" : String) ≠ "" ∧ ("the cat sXt" : String) ≠ "" ∧
      fuzzyScore "THE CAT SAT" "the cat sXt" = 18 := by
  refine ⟨by decide, by decide, by decide, by decide, by decide⟩

/-- Claim C5 amended: for `title`/`author_list` and non-empty values,
fuzzy matching returns true iff the stripped-lowercased forms are
string-equal, or the Ratcliff/Obershelp score of the raw (unstripped,
case-sensitive) strings — as `int(ratio·100)` — reaches the threshold
(88 for title, 82 for author). -/
theorem c5_amended (a b : String) (ha : a ≠ "") (hb : b ≠ "") :
    (close_enough a b .title = true ↔
      (norm_str a = norm_str b ∨ fuzzyScore a b ≥ 88)) ∧
      (close_enough a b .author = true ↔
        (norm_str a = norm_str b ∨ fuzzyScore a b ≥ 82)) := by
  constructor <;>
    · simp only [close_enough, ha, hb]
      by_cases hn : norm_str a = norm_str b <;> simp [hn]

/-- Claim C5 witness: the amended characterization evaluated on the
concrete non-empty pair `"Smith J"` / `"Smith"` (raw score 83: fuzzy
for author, not for title). -/
theorem c5_witness :
    (close_enough "Smith J" "Smith" .title = true ↔
      (norm_str "Smith J" = norm_str "Smith" ∨ fuzzyScore "Smith J" "Smith" ≥ 88)) ∧
      (close_enough "Smith J" "Smith" .author = true ↔
        (norm_str "Smith J" = norm_str "Smith" ∨ fuzzyScore "Smith J" "Smith" ≥ 82)) :=
  c5_amended "Smith J" "Smith" (by decide) (by decide)

/-! ## Claim C6 -/

/-- Claim C6 counterexample: appending the same Block 4 audit entry
after two different ledger histories yields the identical new line, so
the appended entry cannot contain a hash (or any function) of the
previous line's content. -/
theorem c6_counterexample :
    (blockFourAuditAppend auditEntryEx ["first line"]).getLast? =
        (blockFourAuditAppend auditEntryEx ["a completely different line"]).getLast? ∧
      ("first line" : String) ≠ "a completely different line" := by
  constructor
  · simp [blockFourAuditAppend]
  · decide

/-- Claim C6 amended: both audit writers append exactly one serialized
line that is a function of the entry data alone (for Block 4, that data
includes SHA-256 hashes of the step's output files, not of any ledger
line); the appended line is independent of all previous ledger content,
so the lines do not form a hash chain and earlier-line tampering is not
reflected in later entries. -/
theorem c6_amended :
    (∀ (e : AuditEntry) (log1 log2 : List String),
      (blockFourAuditAppend e log1).getLast? = (blockFourAuditAppend e log2).getLast?) ∧
      (∀ (entry : String) (log : List String),
        write_audit_log entry log = log ++ [entry]) := by
  constructor
  · intro e log1 log2
    simp [blockFourAuditAppend]
  · intro entry log
    rfl

/-! ## Claim C7 -/

/-- Claim C7 (confirmed): after the Block 4 consensus pass, every
`(record, field)` pair of the manifest either has a final value and
source assigned, or appears in `needs_manual_idx` (and is thereby
flagged for manual review): every deciding branch of the chain writes
`{field}_final`/`{field}_src` and marks `auto_decided`, and the
flagging step records exactly the fields left undecided. -/
theorem c7_decided_or_flagged (manifest : List RowVotes) (idx : Nat) (row : RowVotes)
    (hmem : (idx, row) ∈ manifest.enum) (f : Field4) (hf : f ∈ fieldsList) :
    (rowAssign row f).isSome ∨ (idx, f) ∈ needsManualIdx manifest := by
  by_cases hr : resolveField f (row f) = .review
  · refine Or.inr (List.mem_flatMap.mpr ⟨(idx, row), hmem, ?_⟩)
    refine List.mem_map.mpr ⟨f, List.mem_filter.mpr ⟨hf, ?_⟩, rfl⟩
    simp [autoDecided, hr]
  · refine Or.inl ?_
    unfold rowAssign
    cases h : resolveField f (row f) <;> simp_all [Outcome.finalSrc]

/-- Claim C7 witness: the invariant evaluated on a concrete one-row
manifest. -/
theorem c7_witness :
    (rowAssign (fun _ => votesAuthorFn) .title).isSome ∨
      (0, Field4.title) ∈ needsManualIdx manifestOne :=
  c7_decided_or_flagged manifestOne 0 (fun _ => votesAuthorFn)
    (by simp [manifestOne]) .title (by decide)

/-! ## Claim C8: helper lemmas for the keyword idempotence proof -/

theorem trimL_idem (l : List Char) :
    (l.dropWhile pyIsSpace).dropWhile pyIsSpace = l.dropWhile pyIsSpace := by
  induction l with
  | nil => rfl
  | cons c t ih =>
    rw [List.dropWhile_cons]
    split
    · exact ih
    · simp_all [List.dropWhile_cons]

theorem head_dropWhile_fail {l : List Char} {c : Char}
    (h : (l.dropWhile pyIsSpace).head? = some c) : pyIsSpace c = false := by
  induction l with
  | nil => simp at h
  | cons a t ih =>
    rw [List.dropWhile_cons] at h
    split at h
    · exact ih h
    · simp_all

theorem dropWhile_of_head_fail {l : List Char}
    (h : ∀ c ∈ l.head?, pyIsSpace c = false) : l.dropWhile pyIsSpace = l := by
  cases l with
  | nil => rfl
  | cons a t =>
    rw [List.dropWhile_cons, if_neg]
    simp only [List.head?_cons, Option.mem_def, Option.some.injEq] at h
    simp [h a rfl]

theorem pyStripL_eq (l : List Char) :
    pyStripL l = ((l.dropWhile pyIsSpace).reverse.dropWhile pyIsSpace).reverse := rfl

theorem trimR_prefix (l : List Char) :
    (l.reverse.dropWhile pyIsSpace).reverse <+: l := by
  have h := List.dropWhile_suffix (l := l.reverse) pyIsSpace
  have := List.reverse_prefix.mpr h
  simpa using this

theorem head_strip {l : List Char} {c : Char}
    (h : (pyStripL l).head? = some c) : pyIsSpace c = false := by
  have hBA : pyStripL l <+: l.dropWhile pyIsSpace := trimR_prefix _
  rcases hBA with ⟨t, ht⟩
  have hone : (l.dropWhile pyIsSpace).head? = some c := by
    rw [← ht]
    cases hc : pyStripL l with
    | nil => rw [hc] at h; cases h
    | cons a t1 =>
      rw [hc] at h
      simp only [List.head?_cons, Option.some.injEq] at h
      simp [h]
  exact head_dropWhile_fail hone

theorem last_strip {l : List Char} {c : Char}
    (h : (pyStripL l).getLast? = some c) : pyIsSpace c = false := by
  have heq : (pyStripL l).getLast? =
      ((l.dropWhile pyIsSpace).reverse.dropWhile pyIsSpace).head? := by
    rw [pyStripL_eq, List.getLast?_reverse]
  rw [heq] at h
  exact head_dropWhile_fail h

theorem strip_of_ends (l : List Char) (hhead : ∀ c ∈ l.head?, pyIsSpace c = false)
    (hlast : ∀ c ∈ l.getLast?, pyIsSpace c = false) : pyStripL l = l := by
  rw [pyStripL_eq, dropWhile_of_head_fail hhead, dropWhile_of_head_fail ?h,
    List.reverse_reverse]
  case h =>
    intro c hc
    rw [List.head?_reverse] at hc
    exact hlast c hc

theorem pyStripL_idem (l : List Char) : pyStripL (pyStripL l) = pyStripL l :=
  strip_of_ends _ (fun _ hc => head_strip hc) (fun _ hc => last_strip hc)

theorem pyStripL_cons_space (cs : List Char) : pyStripL (' ' :: cs) = pyStripL cs := by
  rw [pyStripL_eq, pyStripL_eq, List.dropWhile_cons, if_pos (by decide)]

theorem mem_pyStripL {c : Char} {l : List Char} (h : c ∈ pyStripL l) : c ∈ l := by
  have h1 : pyStripL l <+: l.dropWhile pyIsSpace := trimR_prefix _
  have h2 := h1.sublist.mem h
  exact (List.dropWhile_sublist _).mem h2

theorem splitIf_ne_nil (p : Char → Bool) (cs : List Char) : splitIf p cs ≠ [] := by
  cases cs with
  | nil => simp [splitIf]
  | cons c rest =>
    rw [splitIf]
    split <;> simp

theorem splitIf_pieces {p : Char → Bool} {cs : List Char} {w : List Char}
    (hw : w ∈ splitIf p cs) : ∀ c ∈ w, p c = false := by
  induction cs generalizing w with
  | nil =>
    simp only [splitIf, List.mem_singleton] at hw
    subst hw
    intro c hc
    cases hc
  | cons a rest ih =>
    rw [splitIf] at hw
    split at hw
    · rcases List.mem_cons.mp hw with rfl | hw2
      · intro c hc; cases hc
      · exact ih hw2
    · rcases List.mem_cons.mp hw with rfl | hw2
      · intro c hc
        rcases List.mem_cons.mp hc with rfl | hc2
        · simp_all
        · have hhead : (splitIf p rest).headD [] ∈ splitIf p rest := by
            cases hsp : splitIf p rest with
            | nil => exact absurd hsp (splitIf_ne_nil p rest)
            | cons x xs => simp
          exact ih hhead c hc2
      · have : w ∈ splitIf p rest := List.mem_of_mem_tail hw2
        exact ih this

theorem splitIf_no_delim {p : Char → Bool} {cs : List Char}
    (h : ∀ c ∈ cs, p c = false) : splitIf p cs = [cs] := by
  induction cs with
  | nil => rfl
  | cons a rest ih =>
    rw [splitIf, if_neg (by simp [h a (List.mem_cons_self a rest)])]
    have hr : splitIf p rest = [rest] := ih (fun c hc => h c (List.mem_cons_of_mem a hc))
    rw [hr]
    rfl

theorem splitIf_append_clean {p : Char → Bool} {xs : List Char}
    (h : ∀ c ∈ xs, p c = false) (cs : List Char) :
    splitIf p (xs ++ cs) =
      (xs ++ (splitIf p cs).headD []) :: (splitIf p cs).tail := by
  induction xs with
  | nil =>
    simp only [List.nil_append]
    cases hsp : splitIf p cs with
    | nil => exact absurd hsp (splitIf_ne_nil p cs)
    | cons x t => simp
  | cons a rest ih =>
    rw [List.cons_append, splitIf, if_neg (by simp [h a (List.mem_cons_self a rest)])]
    rw [ih (fun c hc => h c (List.mem_cons_of_mem a hc))]
    rfl

theorem splitIf_join {p : Char → Bool} (hsemi : p ';' = true) (hsp : p ' ' = false)
    {ts : List (List Char)} (hts : ∀ t ∈ ts, ∀ c ∈ t, p c = false) (hne : ts ≠ []) :
    splitIf p (joinSemi ts) = ts.head (by simpa using hne) :: (ts.tail.map (' ' :: ·)) := by
  induction ts with
  | nil => exact absurd rfl hne
  | cons t rest ih =>
    cases rest with
    | nil =>
      rw [show joinSemi [t] = t from rfl]
      rw [splitIf_no_delim (hts t (by simp))]
      rfl
    | cons t2 rest2 =>
      rw [show joinSemi (t :: t2 :: rest2) = t ++ ';' :: ' ' :: joinSemi (t2 :: rest2) from rfl]
      rw [splitIf_append_clean (hts t (by simp))]
      rw [show splitIf p (';' :: ' ' :: joinSemi (t2 :: rest2)) =
        [] :: splitIf p (' ' :: joinSemi (t2 :: rest2)) by rw [splitIf, if_pos hsemi]]
      rw [show splitIf p (' ' :: joinSemi (t2 :: rest2)) =
        (' ' :: (splitIf p (joinSemi (t2 :: rest2))).headD []) ::
          (splitIf p (joinSemi (t2 :: rest2))).tail by rw [splitIf, if_neg (by simp [hsp])]]
      rw [ih (fun u hu c hc => hts u (List.mem_cons_of_mem t hu) c hc) (by simp)]
      simp

theorem kwTokens_join {ts : List (List Char)}
    (h1 : ∀ t ∈ ts, t ≠ []) (h2 : ∀ t ∈ ts, pyStripL t = t)
    (h3 : ∀ t ∈ ts, ∀ c ∈ t, ([';', ',', '/', '|'].contains c) = false)
    (hne : ts ≠ []) : kwTokens (joinSemi ts) = ts := by
  unfold kwTokens splitChars
  rw [splitIf_join (by decide) (by decide) h3 hne]
  cases ts with
  | nil => exact absurd rfl hne
  | cons t rest =>
    simp only [List.head_cons, List.tail_cons, List.map_cons, List.map_map]
    rw [h2 t (by simp)]
    have hmap : rest.map (pyStripL ∘ (' ' :: ·)) = rest := by
      have := List.map_congr_left (l := rest) (f := pyStripL ∘ (' ' :: ·)) (g := id)
        (fun u hu => by
          simp only [Function.comp_apply, id_eq, pyStripL_cons_space]
          exact h2 u (List.mem_cons_of_mem t hu))
      rw [this, List.map_id]
    rw [hmap]
    refine List.filter_eq_self.mpr (fun u hu => ?_)
    simp only [decide_eq_true_eq]
    exact h1 u hu

theorem char_eq_of_toNat_eq {x y : Char} (h : x.toNat = y.toNat) : x = y := by
  apply Char.eq_of_val_eq
  unfold Char.toNat UInt32.toNat at h
  have hb : x.val.toBitVec = y.val.toBitVec := BitVec.toNat_injective h
  cases hx : x.val with
  | mk bv =>
    cases hy : y.val with
    | mk bv2 =>
      rw [hx, hy] at hb
      simp at hb
      simp [hb]

theorem lexLt_irrefl (a : List Char) : lexLt a a = false := by
  induction a with
  | nil => rfl
  | cons c t ih => simp [lexLt, ih]

theorem lexLt_asymm {a b : List Char} (h : lexLt a b = true) : lexLt b a = false := by
  induction a generalizing b with
  | nil =>
    cases b with
    | nil => simp [lexLt] at h
    | cons y ys => rfl
  | cons x xs ih =>
    cases b with
    | nil => simp [lexLt] at h
    | cons y ys =>
      rw [lexLt] at h ⊢
      split at h
      · rw [if_neg (by omega), if_pos (by omega)]
      · split at h
        · cases h
        · rw [if_neg (by omega), if_neg (by omega)]
          exact ih h

theorem lexLt_conn {a b : List Char} (h1 : lexLt a b = false) (h2 : lexLt b a = false) :
    a = b := by
  induction a generalizing b with
  | nil =>
    cases b with
    | nil => rfl
    | cons y ys => simp [lexLt] at h1
  | cons x xs ih =>
    cases b with
    | nil => simp [lexLt] at h2
    | cons y ys =>
      rw [lexLt] at h1 h2
      split at h1
      · cases h1
      · split at h1
        · rw [if_pos (by omega)] at h2
          cases h2
        · rw [if_neg (by omega), if_neg (by omega)] at h2
          have hx : x = y := char_eq_of_toNat_eq (by omega)
          rw [hx, ih h1 h2]

theorem lexLt_trans {a b c : List Char} (h1 : lexLt a b = true) (h2 : lexLt b c = true) :
    lexLt a c = true := by
  induction a generalizing b c with
  | nil =>
    cases c with
    | nil =>
      cases b with
      | nil => simp [lexLt] at h1
      | cons y ys => simp [lexLt] at h2
    | cons z zs => rfl
  | cons x xs ih =>
    cases b with
    | nil => simp [lexLt] at h1
    | cons y ys =>
      cases c with
      | nil => simp [lexLt] at h2
      | cons z zs =>
        rw [lexLt] at h1 h2 ⊢
        split at h1
        · split at h2
          · rw [if_pos (by omega)]
          · split at h2
            · cases h2
            · rw [if_pos (by omega)]
        · split at h1
          · cases h1
          · split at h2
            · rw [if_pos (by omega)]
            · split at h2
              · cases h2
              · rw [if_neg (by omega), if_neg (by omega)]
                exact ih h1 h2

theorem notLt_trans {a b c : List Char} (h1 : lexLt b a = false) (h2 : lexLt c b = false) :
    lexLt c a = false := by
  by_cases hca : lexLt c a = true
  · by_cases hba : b = a
    · rw [hba] at h2
      rw [h2] at hca
      cases hca
    · have hab : lexLt a b = true := by
        by_cases h : lexLt a b = true
        · exact h
        · exact absurd (lexLt_conn (Bool.not_eq_true _ ▸ h) h1).symm hba
      have := lexLt_trans hca hab
      rw [this] at h2
      cases h2
  · exact Bool.not_eq_true _ ▸ hca

-- sort lemmas
theorem insertByKey_perm (x : List Char) (l : List (List Char)) :
    List.Perm (insertByKey x l) (x :: l) := by
  induction l with
  | nil => rfl
  | cons y ys ih =>
    rw [insertByKey]
    split
    · exact List.Perm.trans (List.Perm.cons y ih) (List.Perm.swap x y ys)
    · rfl

theorem sortByKey_perm (l : List (List Char)) : List.Perm (sortByKey l) l := by
  induction l with
  | nil => rfl
  | cons x xs ih =>
    exact List.Perm.trans (insertByKey_perm x (sortByKey xs)) (List.Perm.cons x ih)

theorem sorted_insert {l : List (List Char)} (x : List Char)
    (h : l.Pairwise (fun a b => keyLt b a = false)) :
    (insertByKey x l).Pairwise (fun a b => keyLt b a = false) := by
  induction l with
  | nil => simp [insertByKey]
  | cons y ys ih =>
    rcases List.pairwise_cons.mp h with ⟨hy, hys⟩
    by_cases hk : keyLt y x = true
    · rw [insertByKey, if_pos hk]
      refine List.pairwise_cons.mpr ⟨?_, ih hys⟩
      intro z hz
      have hz2 := (insertByKey_perm x ys).mem_iff.mp hz
      rcases List.mem_cons.mp hz2 with rfl | hz3
      · exact lexLt_asymm hk
      · exact hy z hz3
    · rw [insertByKey, if_neg hk]
      have hk2 : keyLt y x = false := by
        rw [Bool.not_eq_true] at hk
        exact hk
      refine List.pairwise_cons.mpr ⟨?_, h⟩
      intro z hz
      rcases List.mem_cons.mp hz with rfl | hz2
      · exact hk2
      · exact notLt_trans hk2 (hy z hz2)

theorem sortByKey_sorted (l : List (List Char)) :
    (sortByKey l).Pairwise (fun a b => keyLt b a = false) := by
  induction l with
  | nil => simp [sortByKey]
  | cons x xs ih => exact sorted_insert x ih

theorem sortByKey_fixed {l : List (List Char)}
    (h : l.Pairwise (fun a b => keyLt b a = false)) : sortByKey l = l := by
  induction l with
  | nil => rfl
  | cons x xs ih =>
    rcases List.pairwise_cons.mp h with ⟨hx, hxs⟩
    rw [sortByKey, ih hxs]
    cases xs with
    | nil => rfl
    | cons y ys =>
      rw [insertByKey, if_neg]
      rw [hx y (List.mem_cons_self y ys)]
      simp

-- dedup lemmas
theorem dedupLowerKeep_subset {seen : List (List Char)} {l : List (List Char)}
    {a : List Char} (h : a ∈ dedupLowerKeep seen l) : a ∈ l := by
  induction l generalizing seen with
  | nil => cases h
  | cons b rest ih =>
    rw [dedupLowerKeep] at h
    split at h
    · rcases List.mem_cons.mp h with rfl | h2
      · exact List.mem_cons_self a rest
      · exact List.mem_cons_of_mem b (ih h2)
    · exact List.mem_cons_of_mem b (ih h)

theorem dedupLowerKeep_props {seen : List (List Char)} {l : List (List Char)}
    {a : List Char} (h : a ∈ dedupLowerKeep seen l) :
    pyLowerL a ≠ [] ∧ pyLowerL a ∉ seen := by
  induction l generalizing seen with
  | nil => cases h
  | cons b rest ih =>
    rw [dedupLowerKeep] at h
    split at h
    · rename_i hcond
      rw [Bool.and_eq_true] at hcond
      rcases List.mem_cons.mp h with rfl | h2
      · refine ⟨by simpa using hcond.1, ?_⟩
        have := hcond.2
        simp only [Bool.not_eq_true'] at this
        simpa using this
      · have := ih h2
        exact ⟨this.1, fun hs => this.2 (List.mem_cons_of_mem _ hs)⟩
    · exact ih h

theorem dedupLowerKeep_pairwise (seen : List (List Char)) (l : List (List Char)) :
    (dedupLowerKeep seen l).Pairwise (fun a b => pyLowerL a ≠ pyLowerL b) := by
  induction l generalizing seen with
  | nil => simp [dedupLowerKeep]
  | cons b rest ih =>
    rw [dedupLowerKeep]
    split
    · refine List.pairwise_cons.mpr ⟨?_, ih _⟩
      intro z hz
      have := (dedupLowerKeep_props hz).2
      intro heq
      exact this (heq ▸ List.mem_cons_self _ _)
    · exact ih seen

theorem dedupLowerKeep_fixed {seen : List (List Char)} {l : List (List Char)}
    (h1 : ∀ a ∈ l, pyLowerL a ≠ []) (h2 : ∀ a ∈ l, pyLowerL a ∉ seen)
    (h3 : l.Pairwise (fun a b => pyLowerL a ≠ pyLowerL b)) :
    dedupLowerKeep seen l = l := by
  induction l generalizing seen with
  | nil => rfl
  | cons b rest ih =>
    rcases List.pairwise_cons.mp h3 with ⟨hb, hrest⟩
    rw [dedupLowerKeep, if_pos]
    · congr 1
      refine ih (fun a ha => h1 a (List.mem_cons_of_mem b ha)) ?_ hrest
      intro a ha
      intro hmem
      rcases List.mem_cons.mp hmem with heq | hseen
      · exact hb a ha heq.symm
      · exact h2 a (List.mem_cons_of_mem b ha) hseen
    · rw [Bool.and_eq_true]
      constructor
      · simpa using h1 b (List.mem_cons_self b rest)
      · simp only [Bool.not_eq_true']
        simpa using h2 b (List.mem_cons_self b rest)

theorem kwTokens_props {cs : List Char} {t : List Char} (h : t ∈ kwTokens cs) :
    t ≠ [] ∧ pyStripL t = t ∧
      ∀ c ∈ t, (([';', ',', '/', '|'] : List Char).contains c) = false := by
  unfold kwTokens at h
  have hf := List.mem_filter.mp h
  have hne : t ≠ [] := by simpa using hf.2
  rcases List.mem_map.mp hf.1 with ⟨w, hw, rfl⟩
  refine ⟨hne, pyStripL_idem w, ?_⟩
  intro c hc
  have hcw : c ∈ w := mem_pyStripL hc
  unfold splitChars at hw
  exact splitIf_pieces hw c hcw

theorem kwFlat_props {raw : RawVal} {t : List Char} (h : t ∈ kwFlat raw) :
    t ≠ [] ∧ pyStripL t = t ∧
      ∀ c ∈ t, (([';', ',', '/', '|'] : List Char).contains c) = false := by
  unfold kwFlat at h
  rcases List.mem_flatMap.mp h with ⟨s, _, hts⟩
  exact kwTokens_props hts

theorem joinSemi_ne_nil {ts : List (List Char)} (hne : ts ≠ [])
    (h1 : ∀ t ∈ ts, t ≠ []) : joinSemi ts ≠ [] := by
  cases ts with
  | nil => exact absurd rfl hne
  | cons t rest =>
    cases rest with
    | nil => exact h1 t (List.mem_cons_self t [])
    | cons t2 r2 =>
      rw [show joinSemi (t :: t2 :: r2) = t ++ ';' :: ' ' :: joinSemi (t2 :: r2) from rfl]
      simp

/-- Claim C8 amended: normalizing twice equals normalizing once for the
`keyword_list` normalizer, for every raw value (string or list of
strings): the first pass produces non-empty, stripped, delimiter-free
tokens with pairwise-distinct non-empty lowercase keys, sorted by
lowercase key, and re-splitting the `"; "`-join recovers exactly those
tokens; the doi, author_list, country_list and scalar normalizers are
not idempotent (see the counterexample). -/
theorem c8_amended (v : RawVal) :
    normalize_keywords (.str (normalize_keywords v)) = normalize_keywords v := by
  by_cases hf : v.falsy = true
  · have hv : normalize_keywords v = "" := by rw [normalize_keywords, if_pos hf]
    rw [hv]
    decide
  · have hv : normalize_keywords v =
        ⟨joinSemi (sortByKey (dedupLowerKeep [] (kwFlat v)))⟩ := by
      rw [normalize_keywords, if_neg hf]
    rw [hv]
    have hprops : ∀ t ∈ sortByKey (dedupLowerKeep [] (kwFlat v)), t ≠ [] ∧ pyStripL t = t ∧
        ∀ c ∈ t, (([';', ',', '/', '|'] : List Char).contains c) = false := by
      intro t ht
      have h1 : t ∈ dedupLowerKeep [] (kwFlat v) := (sortByKey_perm _).mem_iff.mp ht
      exact kwFlat_props (dedupLowerKeep_subset h1)
    have hlow : ∀ t ∈ sortByKey (dedupLowerKeep [] (kwFlat v)), pyLowerL t ≠ [] := by
      intro t ht
      have h1 : t ∈ dedupLowerKeep [] (kwFlat v) := (sortByKey_perm _).mem_iff.mp ht
      exact (dedupLowerKeep_props h1).1
    have hdist : (sortByKey (dedupLowerKeep [] (kwFlat v))).Pairwise
        (fun a b => pyLowerL a ≠ pyLowerL b) := by
      refine ((sortByKey_perm _).pairwise_iff ?_).mpr (dedupLowerKeep_pairwise [] (kwFlat v))
      intro a b hab
      exact fun h => hab h.symm
    have hsorted := sortByKey_sorted (dedupLowerKeep [] (kwFlat v))
    cases hc : sortByKey (dedupLowerKeep [] (kwFlat v)) with
    | nil => decide
    | cons t rest =>
      rw [hc] at hprops hlow hdist hsorted
      have hne : (t :: rest) ≠ ([] : List (List Char)) := by simp
      have hjne : joinSemi (t :: rest) ≠ [] :=
        joinSemi_ne_nil hne (fun u hu => (hprops u hu).1)
      rw [normalize_keywords, if_neg ?hfalsy]
      case hfalsy =>
        show ¬((RawVal.str ⟨joinSemi (t :: rest)⟩).falsy = true)
        simp only [RawVal.falsy, decide_eq_true_eq]
        intro hmk
        apply hjne
        have : (⟨joinSemi (t :: rest)⟩ : String).data = ("" : String).data := by rw [hmk]
        simpa using this
      have hflat : kwFlat (.str ⟨joinSemi (t :: rest)⟩) = t :: rest := by
        show kwTokens (joinSemi (t :: rest)) ++ [] = t :: rest
        rw [List.append_nil]
        exact kwTokens_join (fun u hu => (hprops u hu).1) (fun u hu => (hprops u hu).2.1)
          (fun u hu => (hprops u hu).2.2) hne
      rw [hflat]
      rw [dedupLowerKeep_fixed hlow (fun a _ => List.not_mem_nil _) hdist]
      rw [sortByKey_fixed hsorted]

/-! ## Claim C8 -/

/-- Claim C8 counterexample: four of the five normalizers are not
idempotent — a doubled DOI-URL prefix is stripped once per application;
an author value can re-split at a regenerated `" and "` delimiter; a
country list can lose a case-variant token on re-normalization; a
scalar value can strip down to the literal `"null"` which the second
pass erases. -/
theorem c8_counterexample :
    normalize_doi (some (normalize_doi (some "https://doi.org/https://doi.org/10.1/x"))) ≠
        normalize_doi (some "https://doi.org/https://doi.org/10.1/x") ∧
      normalize_author (.str (normalize_author (.str "a &and b"))) ≠
        normalize_author (.str "a &and b") ∧
      normalize_country (some (normalize_country (some "NEW ZEALAND;nz"))) ≠
        normalize_country (some "NEW ZEALAND;nz") ∧
      normalize_scalar (normalize_scalar " null ") ≠ normalize_scalar " null " := by
  refine ⟨by decide, by decide, by decide, by decide⟩

/-! ## Claim C9 -/

/-- Claim C9 counterexample: the vote-map parser does not guarantee
that every known method name maps to a value — a cell that is already a
dict is returned unchanged (first branch), and a string that
`json.loads` rejects but `ast.literal_eval` parses to a dict is
returned without `setdefault`; in both cases the `llm_raw` key can be
absent, so the resolver's `votes[m]` lookups can fail. -/
theorem c9_counterexample :
    robust_json_parse (fun _ => Option.none) (fun _ => Option.none)
        (.dict [("grobid", "x")]) = [("grobid", "x")] ∧
      List.lookup "llm_raw" [("grobid", "x")] = Option.none ∧
      robust_json_parse (fun _ => Option.none)
        (fun _ => some (.obj [("grobid", "x")])) (.str "python-dict-literal") =
        [("grobid", "x")] := by
  refine ⟨rfl, by decide, by decide⟩

/-- Claim C9 amended: `normalize_doi` is total and returns the
canonical-empty string for `None`/non-string input; the vote-map parser
returns a complete map (every known method name looks up to a value)
for NaN/blank-ish cells, for strings that `json.loads` parses to a dict
(via `setdefault`), for strings parsed to a non-dict, and for strings
both parsers reject — but not for dict cells or `literal_eval`-parsed
dicts, which are returned unchanged. -/
theorem c9_amended :
    normalize_doi_u Option.none = "" ∧ normalize_doi Option.none = "" ∧
      (∀ (jl le : String → Option PyJson) (m : String), m ∈ methodNames →
        (List.lookup m (robust_json_parse jl le .nan)).isSome) ∧
      (∀ (jl le : String → Option PyJson) (s : String) (kvs : List (String × String))
        (m : String), jl s = some (.obj kvs) → m ∈ methodNames →
        (List.lookup m (robust_json_parse jl le (.str s))).isSome) ∧
      (∀ (jl le : String → Option PyJson) (s : String) (m : String),
        jl s = some .other → m ∈ methodNames →
        (List.lookup m (robust_json_parse jl le (.str s))).isSome) ∧
      (∀ (jl le : String → Option PyJson) (s : String) (m : String),
        jl s = Option.none → le s = Option.none → m ∈ methodNames →
        (List.lookup m (robust_json_parse jl le (.str s))).isSome) := by
  refine ⟨rfl, rfl, ?_, ?_, ?_, ?_⟩
  · intro jl le m hm
    exact lookup_defaultVotesMap hm
  · intro jl le s kvs m hj hm
    simp only [robust_json_parse]
    split_ifs
    · exact lookup_defaultVotesMap hm
    · rw [hj]
      exact lookup_setDefaults kvs hm
  · intro jl le s m hj hm
    simp only [robust_json_parse]
    split_ifs
    · exact lookup_defaultVotesMap hm
    · rw [hj]
      exact lookup_defaultVotesMap hm
  · intro jl le s m hj hl hm
    simp only [robust_json_parse]
    split_ifs
    · exact lookup_defaultVotesMap hm
    · rw [hj, hl]
      exact lookup_defaultVotesMap hm

/-- Claim C9 witness: the amended completeness applied to a string cell
parsed by a concrete `json.loads` oracle into a dict that lacks every
method key. -/
theorem c9_witness :
    (List.lookup "llm_raw"
      (robust_json_parse (fun _ => some (.obj [("a", "b")])) (fun _ => Option.none)
        (.str "payload"))).isSome :=
  c9_amended.2.2.2.1 (fun _ => some (.obj [("a", "b")])) (fun _ => Option.none)
    "payload" [("a", "b")] "llm_raw" rfl (by decide)

/-! ## Claim C10 -/

/-- Claim C10 (confirmed): `approx_match` is symmetric for every field
name and all argument values, including `None` and empty strings —
every branch tests equality of a normalization applied to each side. -/
theorem c10_approx_match_symm (a b : Option String) (fld : String) :
    approx_match a b fld = approx_match b a fld := by
  cases a with
  | none => cases b <;> rfl
  | some sa =>
    cases b with
    | none => rfl
    | some sb =>
      simp only [approx_match]
      split_ifs <;> exact decide_eq_decide.mpr eq_comm

end NurseScr
